import Mathlib

/-!
Shallow embedding of src/addresses.rs (crate beobot), the address-range
grammar built from nom combinators.  Input strings are modelled as
List Char.  A nom parser of output type alpha over &str is modelled as a
function List Char -> Option (List Char x alpha): on success it returns the
remaining input (always a suffix of the original) together with the value;
a nom Err::Error / Err::Failure is modelled as none.  None of the parsers
in this module uses a cut, so the Error / Failure distinction is
unobservable here and Option is a faithful model.
-/

namespace Beobot

abbrev Input := List Char

/-- usize::MAX for the 64-bit targets this crate is built for. -/
def USIZE_MAX : Nat := 2 ^ 64 - 1

/-- ASCII decimal digit 0-9 (code points 48-57), the character class of
nom digit1. -/
def isDig (c : Char) : Bool := decide (48 ≤ c.toNat ∧ c.toNat ≤ 57)

/-- ASCII letter a-z or A-Z (code points 65-90 and 97-122), the character
class of nom alpha0. -/
def isAlph (c : Char) : Bool :=
  decide ((65 ≤ c.toNat ∧ c.toNat ≤ 90) ∨ (97 ≤ c.toNat ∧ c.toNat ≤ 122))

/-- The characters matched by nom multispace0: space (32), tab (9),
carriage return (13) and line feed (10). -/
def isNomSpace (c : Char) : Bool :=
  decide (c.toNat = 32 ∨ c.toNat = 9 ∨ c.toNat = 13 ∨ c.toNat = 10)

/-- Model of nom tag(t): succeeds iff t is a prefix of the input, consuming
it and returning the matched slice of the input. -/
def tag : List Char → Input → Option (Input × List Char)
  | [], i => some (i, [])
  | _ :: _, [] => none
  | c :: t, d :: i =>
    if c = d then (tag t i).map (fun p => (p.1, d :: p.2)) else none

/-- ASCII lower-casing, used to model nom tag_no_case over the marker
"bb".  (nom compares via Unicode to_lowercase; for the pattern "bb" only
ASCII letters can match, so the ASCII model agrees with nom here.) -/
def asciiLower (c : Char) : Char :=
  if 65 ≤ c.toNat ∧ c.toNat ≤ 90 then Char.ofNat (c.toNat + 32) else c

/-- Model of nom tag_no_case(t): case-insensitive prefix match, returning
the matched slice of the input (original casing). -/
def tag_no_case : List Char → Input → Option (Input × List Char)
  | [], i => some (i, [])
  | _ :: _, [] => none
  | c :: t, d :: i =>
    if asciiLower c = asciiLower d then
      (tag_no_case t i).map (fun p => (p.1, d :: p.2))
    else none

/-- Model of nom digit1: consumes one or more decimal digits, failing if
the input does not start with a digit. -/
def digit1 (i : Input) : Option (Input × List Char) :=
  if i.takeWhile isDig = [] then none
  else some (i.dropWhile isDig, i.takeWhile isDig)

/-- Model of nom multispace0: consumes zero or more whitespace characters;
it never fails, and its value (the matched whitespace) is discarded by
every use in this module, so only the remaining input is returned. -/
def multispace0 (i : Input) : Input := i.dropWhile isNomSpace

/-- Numeric value of a decimal digit string, accumulated left to right as
Rust's str::parse::<usize> does (48 is the code point of the digit 0). -/
def digitsToNat (s : List Char) : Nat :=
  s.foldl (fun a c => 10 * a + (c.toNat - 48)) 0

/-- Model of Rust str::parse::<usize> on the slice returned by digit1: it
fails on an empty or non-digit slice (impossible for digit1 output) and on
values exceeding usize::MAX; this checked failure is what map_res turns
into a parse error. -/
def parse_usize (s : List Char) : Option Nat :=
  if s = [] then none
  else if s.all isDig then
    if digitsToNat s ≤ USIZE_MAX then some (digitsToNat s) else none
  else none

/-- The Unicode White_Space property, the character class used by Rust's
str::trim (char::is_whitespace). -/
def isRustWhitespace (c : Char) : Bool :=
  decide (c.toNat = 0x9 ∨ c.toNat = 0xA ∨ c.toNat = 0xB ∨ c.toNat = 0xC ∨
    c.toNat = 0xD ∨ c.toNat = 0x20 ∨ c.toNat = 0x85 ∨ c.toNat = 0xA0 ∨
    c.toNat = 0x1680 ∨ (0x2000 ≤ c.toNat ∧ c.toNat ≤ 0x200A) ∨
    c.toNat = 0x2028 ∨ c.toNat = 0x2029 ∨ c.toNat = 0x202F ∨
    c.toNat = 0x205F ∨ c.toNat = 0x3000)

/-- Model of Rust str::trim: remove leading and trailing whitespace. -/
def rustTrim (s : List Char) : List Char :=
  ((s.dropWhile isRustWhitespace).reverse.dropWhile isRustWhitespace).reverse

/-- struct BrojNumber: a house number with an optional verbatim extension. -/
structure BrojNumber where
  value : Nat
  extension : Option (List Char)
deriving DecidableEq, Repr

/-- struct BrojRange (source fields from / to; from is a Lean keyword,
hence the names fromN / toN). -/
structure BrojRange where
  fromN : BrojNumber
  toN : BrojNumber
deriving DecidableEq, Repr

/-- enum Broj: the Specification tagged union. -/
inductive Broj where
  | Bez : Broj
  | Number : BrojNumber → Broj
  | Range : BrojRange → Broj
deriving DecidableEq, Repr

/-- struct AddressRecord: a street name and its number specifications. -/
structure AddressRecord where
  street : List Char
  numbers : List Broj
deriving DecidableEq, Repr

/-- Remaining input of the extension sub-parser of fn address_number,
pair(alpha0, opt(pair(tag("/"), digit1))): alpha0 always succeeds, and
opt backtracks to the position after the letters when tag("/") or the
following digit1 fails. -/
def ext_rest (r1 : Input) : Input :=
  match tag ['/'] (r1.dropWhile isAlph) with
  | none => r1.dropWhile isAlph
  | some (r2s, _) =>
    match digit1 r2s with
    | none => r1.dropWhile isAlph
    | some (r2d, _) => r2d

/-- fn address_number.  Source shape:
map(pair(map_res(digit1, parse::<usize>),
         map(recognize(pair(alpha0, opt(pair(tag("/"), digit1)))),
             empty-to-None)),
    BrojNumber::from).
recognize captures the span consumed by the extension sub-parser, computed
here from the length difference exactly as nom's offset-based slicing
does; the captured span is None when empty. -/
def address_number (i : Input) : Option (Input × BrojNumber) :=
  match digit1 i with
  | none => none
  | some (r1, ds) =>
    match parse_usize ds with
    | none => none
    | some v =>
      let r3 := ext_rest r1
      let x := r1.take (r1.length - r3.length)
      some (r3, { value := v, extension := if x = [] then none else some x })

/-- fn address_number_range:
map(separated_pair(address_number, tag("-"), address_number),
    BrojRange::from). -/
def address_number_range (i : Input) : Option (Input × BrojRange) :=
  match address_number i with
  | none => none
  | some (m, a) =>
    match tag ['-'] m with
    | none => none
    | some (m2, _) =>
      match address_number m2 with
      | none => none
      | some (r, b) => some (r, { fromN := a, toN := b })

/-- fn broj: alt((value(Broj::Bez, tag_no_case("bb")),
                  map(address_number_range, Broj::from),
                  map(address_number, Broj::from))) —
the alternatives are tried in exactly this order, each later one only
after the earlier ones failed with a recoverable error. -/
def broj (i : Input) : Option (Input × Broj) :=
  match tag_no_case ['b', 'b'] i with
  | some (r, _) => some (r, Broj.Bez)
  | none =>
    match address_number_range i with
    | some (r, rg) => some (r, Broj.Range rg)
    | none =>
      match address_number i with
      | some (r, n) => some (r, Broj.Number n)
      | none => none

/-- The loop of nom separated_list0(tag(","), broj) after the first
element: repeatedly parse the separator and then an element; when either
fails, stop and hand back the input from before that separator.  The fuel
argument only bounds the recursion depth: every iteration consumes at
least two characters (the comma and a non-empty broj match) while
spending one unit of fuel, so fuel equal to the input length never runs
out.  (nom's infinite-loop check fires only when the separator consumes
nothing, which tag(",") cannot do, so it is not modelled.) -/
def sepListLoop : Nat → Input → List Broj → Input × List Broj
  | 0, i, acc => (i, acc)
  | fuel + 1, i, acc =>
    match tag [','] i with
    | none => (i, acc)
    | some (i1, _) =>
      match broj i1 with
      | none => (i, acc)
      | some (i2, b) => sepListLoop fuel i2 (acc ++ [b])

/-- nom separated_list0(tag(","), broj): if the first element fails with a
recoverable error the result is the EMPTY list with nothing consumed;
otherwise the loop above collects the remaining elements.  It never fails
(broj produces no Err::Failure and the separator always consumes). -/
def separated_broj_list (i : Input) : Input × List Broj :=
  match broj i with
  | none => (i, [])
  | some (i1, b) => sepListLoop i1.length i1 [b]

/-- fn broj_list:
delimited(multispace0,
          map(pair(separated_list0(tag(","), broj), opt(tag(","))),
              keep-first),
          multispace0).
All three layers are total here, so the parser always succeeds; the
Option result mirrors the IResult type of the source. -/
def broj_list (i : Input) : Option (Input × List Broj) :=
  let p := separated_broj_list (multispace0 i)
  let r2 := match tag [','] p.1 with
    | none => p.1
    | some (r1, _) => r1
  some (multispace0 r2, p.2)

/-- Model of nom take_until1(":"): split at the first occurrence of the
one-character pattern ":", requiring at least one character before it;
fails when the pattern does not occur or occurs at position zero. -/
def take_until1_colon (i : Input) : Option (Input × Input) :=
  if i.dropWhile (fun c => c != ':') = [] then none
  else if i.takeWhile (fun c => c != ':') = [] then none
  else some (i.dropWhile (fun c => c != ':'), i.takeWhile (fun c => c != ':'))

/-- fn address_number_pair:
map(separated_pair(take_until1(":"), tag(":"), broj_list),
    fun (a, b) => AddressRecord::new(a.trim(), b)). -/
def address_number_pair (i : Input) : Option (Input × AddressRecord) :=
  match take_until1_colon i with
  | none => none
  | some (m, pre) =>
    match tag [':'] m with
    | none => none
    | some (m2, _) =>
      match broj_list m2 with
      | none => none
      | some (r, ns) => some (r, { street := rustTrim pre, numbers := ns })

/-- The loop of nom many1(address_number_pair) after the first entry: keep
parsing entries until one fails, returning the input position of the
failure and the entries collected so far.  As with sepListLoop, fuel
equal to the input length cannot run out because every successful entry
consumes at least two characters (the non-empty street span and the
colon). -/
def many1Loop : Nat → Input → List AddressRecord → Input × List AddressRecord
  | 0, i, acc => (i, acc)
  | fuel + 1, i, acc =>
    match address_number_pair i with
    | none => (i, acc)
    | some (i1, a) => many1Loop fuel i1 (acc ++ [a])

/-- fn addresses: many1(address_number_pair) — fails iff the very first
entry fails (propagating that failure); afterwards entries are collected
until the first failure, whose position is handed back unconsumed. -/
def addresses (i : Input) : Option (Input × List AddressRecord) :=
  match address_number_pair i with
  | none => none
  | some (i1, a) => some (many1Loop i1.length i1 [a])

/-- struct Addresses: the facade owning the parsed records. -/
structure Addresses where
  items : List AddressRecord
deriving DecidableEq, Repr

/-- Addresses::parse: run the row parser and keep only the records,
discarding whatever input remains after the last recognized entry; a
failure of the row parser is passed through. -/
def Addresses.parse (input : Input) : Option Addresses :=
  match addresses input with
  | some (_, items) => some { items := items }
  | none => none

/-- Head test used by several lemma hypotheses: true when the list is
empty or its first element fails the predicate, i.e. when a maximal
predicate-run cannot extend into the list. -/
def headFails (p : Char → Bool) : Input → Bool
  | [] => true
  | c :: _ => !(p c)

/-- Shortest decimal numeral of a natural number, the rendering written
as the token text of a value v in the round-trip property.  The fuel
(first) argument only bounds the recursion depth and n + 1 is always
sufficient. -/
def natToDigitsAux : Nat → Nat → List Char → List Char
  | 0, _, acc => acc
  | fuel + 1, n, acc =>
    if n < 10 then Char.ofNat (48 + n % 10) :: acc
    else natToDigitsAux fuel (n / 10) (Char.ofNat (48 + n % 10) :: acc)

/-- Decimal numeral of n, most significant digit first. -/
def natToDigits (n : Nat) : List Char := natToDigitsAux (n + 1) n []


/-- A run of characters satisfying p followed by a list whose head fails p
is split exactly there by takeWhile / dropWhile. -/
theorem span_append (p : Char → Bool) (xs ys : Input)
    (hx : ∀ c ∈ xs, p c = true) (hy : headFails p ys = true) :
    (xs ++ ys).takeWhile p = xs ∧ (xs ++ ys).dropWhile p = ys := by
  induction xs with
  | nil =>
    cases ys with
    | nil => simp
    | cons c t =>
      simp only [headFails, Bool.not_eq_true'] at hy
      simp [List.takeWhile_cons, List.dropWhile_cons, hy]
  | cons x xs ih =>
    have hpx : p x = true := hx x (by simp)
    have h := ih (fun c hc => hx c (by simp [hc]))
    simp [List.takeWhile_cons, List.dropWhile_cons, hpx, h.1, h.2]

/-- Appending a comma does not change a takeWhile split whose predicate
rejects the comma; the comma lands at the end of the dropped part. -/
theorem span_comma (p : Char → Bool) (hp : p ',' = false) (s : Input) :
    (s ++ [',']).takeWhile p = s.takeWhile p ∧
      (s ++ [',']).dropWhile p = s.dropWhile p ++ [','] := by
  induction s with
  | nil => simp [List.takeWhile_cons, List.dropWhile_cons, hp]
  | cons c t ih =>
    by_cases h : p c = true
    · simp [List.takeWhile_cons, List.dropWhile_cons, h, ih.1, ih.2]
    · have h' : p c = false := by revert h; cases p c <;> simp
      simp [List.takeWhile_cons, List.dropWhile_cons, h']

/-- Inversion for a single-character tag. -/
theorem tag_single (c : Char) (i : Input) (r : Input) (m : List Char)
    (h : tag [c] i = some (r, m)) : i = c :: r ∧ m = [c] := by
  cases i with
  | nil => simp [tag] at h
  | cons d t =>
    by_cases hcd : c = d
    · subst hcd
      have he : tag [c] (c :: t) = some (t, [c]) := by simp [tag]
      rw [he, Option.some.injEq, Prod.mk.injEq] at h
      exact ⟨by rw [h.1], by rw [h.2]⟩
    · simp [tag, hcd] at h

/-- A successful tag match is unaffected by input appended past it. -/
theorem tag_ext (t : List Char) (s u : Input) (r m : List Char)
    (h : tag t s = some (r, m)) : tag t (s ++ u) = some (r ++ u, m) := by
  induction t generalizing s m with
  | nil =>
    simp [tag] at h
    simp [tag, h.1, h.2]
  | cons c t ih =>
    cases s with
    | nil => exact Option.noConfusion h
    | cons d s2 =>
      by_cases hcd : c = d
      · subst hcd
        simp only [tag, if_pos rfl, eq_self_iff_true, if_true] at h
        cases e : tag t s2 with
        | none => rw [e] at h; simp at h
        | some q =>
          obtain ⟨r2, m2⟩ := q
          rw [e] at h
          simp only [Option.map_some', Option.some.injEq, Prod.mk.injEq] at h
          obtain ⟨h1, h2⟩ := h
          subst h1
          subst h2
          have h3 := ih s2 m2 e
          simp [tag, List.append_eq, h3]
      · simp [tag, hcd] at h

/-- A failing tag whose characters are not commas still fails after a
comma is appended to the input. -/
theorem tag_none_append_comma (t : List Char) (s : Input)
    (ht : ∀ c ∈ t, c ≠ ',') (h : tag t s = none) :
    tag t (s ++ [',']) = none := by
  induction t generalizing s with
  | nil => simp [tag] at h
  | cons c t ih =>
    cases s with
    | nil =>
      have hc : c ≠ ',' := ht c (by simp)
      simp [tag, hc]
    | cons d s2 =>
      by_cases hcd : c = d
      · subst hcd
        simp only [tag, if_pos rfl, eq_self_iff_true, if_true] at h
        cases e : tag t s2 with
        | some q => rw [e] at h; simp at h
        | none =>
          have h3 := ih s2 (fun x hx => ht x (by simp [hx])) e
          simp [tag, List.append_eq, h3]
      · simp [tag, hcd]

/-- A successful case-insensitive tag match is unaffected by appended
input. -/
theorem tag_no_case_ext (t : List Char) (s u : Input) (r m : List Char)
    (h : tag_no_case t s = some (r, m)) :
    tag_no_case t (s ++ u) = some (r ++ u, m) := by
  induction t generalizing s m with
  | nil =>
    simp [tag_no_case] at h
    simp [tag_no_case, h.1, h.2]
  | cons c t ih =>
    cases s with
    | nil => exact Option.noConfusion h
    | cons d s2 =>
      by_cases hcd : asciiLower c = asciiLower d
      · simp only [tag_no_case, if_pos hcd, eq_self_iff_true, if_true] at h
        cases e : tag_no_case t s2 with
        | none => rw [e] at h; simp at h
        | some q =>
          obtain ⟨r2, m2⟩ := q
          rw [e] at h
          simp only [Option.map_some', Option.some.injEq, Prod.mk.injEq] at h
          obtain ⟨h1, h2⟩ := h
          subst h1
          subst h2
          have h3 := ih s2 m2 e
          simp [tag_no_case, List.append_eq, hcd, h3]
      · simp [tag_no_case, hcd] at h

/-- A failing case-insensitive tag whose characters do not lower-case to a
comma still fails after a comma is appended. -/
theorem tag_no_case_none_append_comma (t : List Char) (s : Input)
    (ht : ∀ c ∈ t, asciiLower c ≠ ',') (h : tag_no_case t s = none) :
    tag_no_case t (s ++ [',']) = none := by
  induction t generalizing s with
  | nil => simp [tag_no_case] at h
  | cons c t ih =>
    cases s with
    | nil =>
      have hc : asciiLower c ≠ asciiLower ',' := by
        have h0 : asciiLower ',' = ',' := by decide
        rw [h0]; exact ht c (by simp)
      simp [tag_no_case, hc]
    | cons d s2 =>
      by_cases hcd : asciiLower c = asciiLower d
      · simp only [tag_no_case, if_pos hcd, eq_self_iff_true, if_true] at h
        cases e : tag_no_case t s2 with
        | some q => rw [e] at h; simp at h
        | none =>
          have h3 := ih s2 (fun x hx => ht x (by simp [hx])) e
          simp [tag_no_case, List.append_eq, hcd, h3]
      · simp [tag_no_case, hcd]

/-- digit1 success survives an appended comma without changing the
digits. -/
theorem digit1_ext_comma (s : Input) (r ds : List Char)
    (h : digit1 s = some (r, ds)) :
    digit1 (s ++ [',']) = some (r ++ [','], ds) := by
  have hc := span_comma isDig (by decide) s
  unfold digit1 at h ⊢
  rw [hc.1, hc.2]
  by_cases he : s.takeWhile isDig = []
  · rw [if_pos he] at h; exact absurd h (by simp)
  · rw [if_neg he] at h ⊢
    simp only [Option.some.injEq, Prod.mk.injEq] at h
    simp [h.1, h.2]

/-- digit1 failure survives an appended comma. -/
theorem digit1_none_append_comma (s : Input) (h : digit1 s = none) :
    digit1 (s ++ [',']) = none := by
  have hc := span_comma isDig (by decide) s
  unfold digit1 at h ⊢
  rw [hc.1]
  by_cases he : s.takeWhile isDig = []
  · rw [if_pos he]
  · rw [if_neg he] at h; exact absurd h (by simp)


/-- ext_rest commutes with an appended comma: the extension sub-parser
stops at the same offset because a comma is neither a letter, a slash nor
a digit. -/
theorem ext_rest_comma (r1 : Input) :
    ext_rest (r1 ++ [',']) = ext_rest r1 ++ [','] := by
  have hd := span_comma isAlph (by decide) r1
  cases e : tag ['/'] (r1.dropWhile isAlph) with
  | none =>
    have h1 : tag ['/'] (r1.dropWhile isAlph ++ [',']) = none := by
      refine tag_none_append_comma _ _ ?_ e
      intro c hc
      simp at hc
      subst hc
      decide
    simp only [ext_rest, hd.2, h1, e]
  | some q =>
    obtain ⟨r2s, m⟩ := q
    have et := tag_ext ['/'] _ [','] r2s m e
    cases e2 : digit1 r2s with
    | none =>
      have h2 := digit1_none_append_comma r2s e2
      simp only [ext_rest, hd.2, et, e, e2, h2]
    | some q2 =>
      obtain ⟨r2d, ds⟩ := q2
      have h2 := digit1_ext_comma r2s r2d ds e2
      simp only [ext_rest, hd.2, et, e, e2, h2]

/-- address_number success survives an appended comma: the same number and
extension are produced and the comma stays unconsumed. -/
theorem address_number_ext_comma (s : Input) (r : Input) (n : BrojNumber)
    (h : address_number s = some (r, n)) :
    address_number (s ++ [',']) = some (r ++ [','], n) := by
  cases e : digit1 s with
  | none => rw [address_number, e] at h; exact Option.noConfusion h
  | some q =>
    obtain ⟨r1, ds⟩ := q
    have e' := digit1_ext_comma s r1 ds e
    cases e2 : parse_usize ds with
    | none =>
      simp only [address_number, e, e2] at h
      exact Option.noConfusion h
    | some v =>
      simp only [address_number, e, e2, Option.some.injEq, Prod.mk.injEq] at h
      have hl : (r1 ++ [',']).length - (ext_rest r1 ++ [',']).length =
          r1.length - (ext_rest r1).length := by
        simp [List.length_append]
      have ht : (r1 ++ [',']).take (r1.length - (ext_rest r1).length) =
          r1.take (r1.length - (ext_rest r1).length) :=
        List.take_append_of_le_length (Nat.sub_le _ _)
      simp only [address_number, e', e2, hl, ht, ext_rest_comma,
        Option.some.injEq, Prod.mk.injEq]
      exact ⟨by rw [h.1], h.2⟩

/-- address_number failure survives an appended comma. -/
theorem address_number_none_comma (s : Input)
    (h : address_number s = none) : address_number (s ++ [',']) = none := by
  cases e : digit1 s with
  | none =>
    have e' := digit1_none_append_comma s e
    simp only [address_number, e']
  | some q =>
    obtain ⟨r1, ds⟩ := q
    have e' := digit1_ext_comma s r1 ds e
    cases e2 : parse_usize ds with
    | none => simp only [address_number, e', e2]
    | some v =>
      simp only [address_number, e, e2] at h
      exact Option.noConfusion h

/-- address_number_range success survives an appended comma. -/
theorem address_number_range_ext_comma (s : Input) (r : Input)
    (rg : BrojRange) (h : address_number_range s = some (r, rg)) :
    address_number_range (s ++ [',']) = some (r ++ [','], rg) := by
  cases e : address_number s with
  | none => rw [address_number_range, e] at h; exact Option.noConfusion h
  | some q =>
    obtain ⟨m, a⟩ := q
    have e' := address_number_ext_comma s m a e
    cases e2 : tag ['-'] m with
    | none =>
      simp only [address_number_range, e, e2] at h
      exact Option.noConfusion h
    | some q2 =>
      obtain ⟨m2, mm⟩ := q2
      have e2' := tag_ext ['-'] m [','] m2 mm e2
      cases e3 : address_number m2 with
      | none =>
        simp only [address_number_range, e, e2, e3] at h
        exact Option.noConfusion h
      | some q3 =>
        obtain ⟨r2, b⟩ := q3
        have e3' := address_number_ext_comma m2 r2 b e3
        simp only [address_number_range, e, e2, e3, Option.some.injEq,
          Prod.mk.injEq] at h
        simp only [address_number_range, e', e2', e3', Option.some.injEq,
          Prod.mk.injEq]
        exact ⟨by rw [h.1], h.2⟩

/-- address_number_range failure survives an appended comma. -/
theorem address_number_range_none_comma (s : Input)
    (h : address_number_range s = none) :
    address_number_range (s ++ [',']) = none := by
  cases e : address_number s with
  | none =>
    have e' := address_number_none_comma s e
    simp only [address_number_range, e']
  | some q =>
    obtain ⟨m, a⟩ := q
    have e' := address_number_ext_comma s m a e
    cases e2 : tag ['-'] m with
    | none =>
      have h2 : tag ['-'] (m ++ [',']) = none := by
        refine tag_none_append_comma _ _ ?_ e2
        intro c hc
        simp at hc
        subst hc
        decide
      simp only [address_number_range, e', h2]
    | some q2 =>
      obtain ⟨m2, mm⟩ := q2
      have e2' := tag_ext ['-'] m [','] m2 mm e2
      cases e3 : address_number m2 with
      | none =>
        have e3' := address_number_none_comma m2 e3
        simp only [address_number_range, e', e2', e3']
      | some q3 =>
        simp only [address_number_range, e, e2, e3] at h
        exact Option.noConfusion h

/-- broj success survives an appended comma with the same specification
value. -/
theorem broj_ext_comma (s : Input) (r : Input) (b : Broj)
    (h : broj s = some (r, b)) : broj (s ++ [',']) = some (r ++ [','], b) := by
  cases e : tag_no_case ['b', 'b'] s with
  | some q =>
    obtain ⟨r0, m⟩ := q
    have e' := tag_no_case_ext ['b', 'b'] s [','] r0 m e
    simp only [broj, e, Option.some.injEq, Prod.mk.injEq] at h
    simp only [broj, e', Option.some.injEq, Prod.mk.injEq]
    exact ⟨by rw [h.1], h.2⟩
  | none =>
    have e' : tag_no_case ['b', 'b'] (s ++ [',']) = none := by
      refine tag_no_case_none_append_comma _ _ ?_ e
      intro c hc
      simp at hc
      subst hc
      decide
    cases e2 : address_number_range s with
    | some q2 =>
      obtain ⟨r2, rg⟩ := q2
      have e2' := address_number_range_ext_comma s r2 rg e2
      simp only [broj, e, e2, Option.some.injEq, Prod.mk.injEq] at h
      simp only [broj, e', e2', Option.some.injEq, Prod.mk.injEq]
      exact ⟨by rw [h.1], h.2⟩
    | none =>
      have e2' := address_number_range_none_comma s e2
      cases e3 : address_number s with
      | none =>
        simp only [broj, e, e2, e3] at h
        exact Option.noConfusion h
      | some q3 =>
        obtain ⟨r3, n⟩ := q3
        have e3' := address_number_ext_comma s r3 n e3
        simp only [broj, e, e2, e3, Option.some.injEq, Prod.mk.injEq] at h
        simp only [broj, e', e2', e3', Option.some.injEq, Prod.mk.injEq]
        exact ⟨by rw [h.1], h.2⟩

/-- broj rejects the empty input. -/
theorem broj_nil : broj ([] : Input) = none := rfl

/-- A successful broj match never starts with a whitespace character, so
the leading multispace0 of broj_list consumes nothing in front of it. -/
theorem broj_head_not_space (c : Char) (t : Input) (x : Input × Broj)
    (h : broj (c :: t) = some x) : isNomSpace c = false := by
  cases e : tag_no_case ['b', 'b'] (c :: t) with
  | some q =>
    by_cases hec : asciiLower 'b' = asciiLower c
    · by_contra hsp
      have hsp' : isNomSpace c = true := by revert hsp; cases isNomSpace c <;> simp
      have hsn : c.toNat = 32 ∨ c.toNat = 9 ∨ c.toNat = 13 ∨ c.toNat = 10 := by
        simpa [isNomSpace, decide_eq_true_eq] using hsp'
      have hlow : asciiLower c = c := by
        unfold asciiLower
        rw [if_neg (by omega)]
      rw [hlow] at hec
      have h98 : ('b').toNat = c.toNat := congrArg Char.toNat hec
      have hb : ('b').toNat = 98 := by decide
      omega
    · simp [tag_no_case, hec] at e
  | none =>
    simp only [broj, e] at h
    have hdig : isDig c = true := by
      by_contra h6
      have h6' : isDig c = false := by revert h6; cases isDig c <;> simp
      have hd1 : digit1 (c :: t) = none := by
        simp [digit1, List.takeWhile_cons, h6']
      have han : address_number (c :: t) = none := by
        simp only [address_number, hd1]
      have har : address_number_range (c :: t) = none := by
        simp only [address_number_range, han]
      simp only [har, han] at h
      exact Option.noConfusion h
    simp only [isDig, decide_eq_true_eq] at hdig
    simp only [isNomSpace, decide_eq_false_iff_not]
    omega


/-- When the separated-list loop consumes its entire input, running it on
that input with one appended comma collects the same items and stops with
exactly the trailing comma unconsumed. -/
theorem sepListLoop_append_comma :
    ∀ (n : Nat) (i : Input) (acc items : List Broj),
      sepListLoop n i acc = ([], items) →
      sepListLoop (n + 1) (i ++ [',']) acc = ([','], items) := by
  intro n
  induction n with
  | zero =>
    intro i acc items h
    simp only [sepListLoop, Prod.mk.injEq] at h
    obtain ⟨h1, h2⟩ := h
    subst h1
    subst h2
    simp [sepListLoop, tag, broj_nil]
  | succ n ih =>
    intro i acc items h
    cases e : tag [','] i with
    | none =>
      simp only [sepListLoop, e, Prod.mk.injEq] at h
      obtain ⟨h1, h2⟩ := h
      subst h1
      subst h2
      simp [sepListLoop, tag, broj_nil]
    | some q =>
      obtain ⟨i1, m⟩ := q
      obtain ⟨hi, hm⟩ := tag_single ',' i i1 m e
      subst hm
      cases e2 : broj i1 with
      | none =>
        simp only [sepListLoop, e, e2, Prod.mk.injEq] at h
        obtain ⟨h1, h2⟩ := h
        rw [hi] at h1
        exact absurd h1 (by simp)
      | some q2 =>
        obtain ⟨i2, b⟩ := q2
        simp only [sepListLoop, e, e2] at h
        have hstep := ih i2 (acc ++ [b]) items h
        have e' : tag [','] (i ++ [',']) = some (i1 ++ [','], [',']) := by
          rw [hi]
          exact tag_ext [','] (',' :: i1) [','] i1 [','] (by simp [tag])
        have e2' := broj_ext_comma i1 i2 b e2
        have hun : sepListLoop (n + 1 + 1) (i ++ [',']) acc =
            sepListLoop (n + 1) (i2 ++ [',']) (acc ++ [b]) := by
          simp only [sepListLoop, e', e2']
        rw [hun, hstep]

/-- The many1 loop only ever appends to its accumulator. -/
theorem many1Loop_shape :
    ∀ (n : Nat) (i : Input) (acc : List AddressRecord),
      ∃ r extra, many1Loop n i acc = (r, acc ++ extra) := by
  intro n
  induction n with
  | zero => intro i acc; exact ⟨i, [], by simp [many1Loop]⟩
  | succ n ih =>
    intro i acc
    cases e : address_number_pair i with
    | none => exact ⟨i, [], by simp [many1Loop, e]⟩
    | some q =>
      obtain ⟨i1, a⟩ := q
      obtain ⟨r, extra, he⟩ := ih i1 (acc ++ [a])
      exact ⟨r, [a] ++ extra, by simp only [many1Loop, e, he, List.append_assoc]⟩

/-- The accumulator of the numeral builder is a plain suffix. -/
theorem natToDigitsAux_acc (fuel : Nat) :
    ∀ (n : Nat) (acc : List Char),
      natToDigitsAux fuel n acc = natToDigitsAux fuel n [] ++ acc := by
  induction fuel with
  | zero => intro n acc; simp [natToDigitsAux]
  | succ fuel ih =>
    intro n acc
    by_cases hn : n < 10
    · simp [natToDigitsAux, hn]
    · simp only [natToDigitsAux, if_neg hn]
      rw [ih (n / 10) (Char.ofNat (48 + n % 10) :: acc),
        ih (n / 10) [Char.ofNat (48 + n % 10)]]
      simp

/-- The character of a single decimal digit: its code point is 48 + k and
it satisfies isDig. -/
theorem digitChar_spec (k : Nat) (hk : k < 10) :
    (Char.ofNat (48 + k)).toNat = 48 + k ∧ isDig (Char.ofNat (48 + k)) = true := by
  interval_cases k <;> exact ⟨rfl, rfl⟩

/-- With sufficient fuel the numeral builder produces a non-empty
all-digit string whose left-to-right decimal value is the input. -/
theorem natToDigitsAux_spec :
    ∀ (fuel n : Nat), n < fuel →
      (∀ c ∈ natToDigitsAux fuel n [], isDig c = true) ∧
      natToDigitsAux fuel n [] ≠ [] ∧
      digitsToNat (natToDigitsAux fuel n []) = n := by
  intro fuel
  induction fuel with
  | zero => intro n hn; omega
  | succ fuel ih =>
    intro n hn
    by_cases h10 : n < 10
    · have hd := digitChar_spec (n % 10) (Nat.mod_lt n (by omega))
      simp only [natToDigitsAux, if_pos h10]
      refine ⟨?_, by simp, ?_⟩
      · intro c hc
        simp at hc
        rw [hc]
        exact hd.2
      · simp [digitsToNat, hd.1]
        omega
    · have hpos : 0 < n := by omega
      have hdiv : n / 10 < n := Nat.div_lt_self hpos (by omega)
      have hfuel : n / 10 < fuel := by omega
      obtain ⟨ha, hb, hc⟩ := ih (n / 10) hfuel
      have hd := digitChar_spec (n % 10) (Nat.mod_lt n (by omega))
      simp only [natToDigitsAux, if_neg h10]
      rw [natToDigitsAux_acc]
      refine ⟨?_, by simp, ?_⟩
      · intro c hcm
        simp at hcm
        cases hcm with
        | inl hcm => exact ha c hcm
        | inr hcm => rw [hcm]; exact hd.2
      · simp only [digitsToNat, List.foldl_append] at hc ⊢
        simp [hc, hd.1]
        omega

/-- The rendered numeral is made of digits. -/
theorem natToDigits_digits (n : Nat) : ∀ c ∈ natToDigits n, isDig c = true :=
  (natToDigitsAux_spec (n + 1) n (by omega)).1

/-- The rendered numeral is non-empty. -/
theorem natToDigits_ne_nil (n : Nat) : natToDigits n ≠ [] :=
  (natToDigitsAux_spec (n + 1) n (by omega)).2.1

/-- Parsing the rendered numeral back gives the number. -/
theorem digitsToNat_natToDigits (n : Nat) : digitsToNat (natToDigits n) = n :=
  (natToDigitsAux_spec (n + 1) n (by omega)).2.2


/-- A successful address_number match starts with a decimal digit. -/
theorem address_number_head (s : Input) (p : Input × BrojNumber)
    (h : address_number s = some p) : ∃ c t, s = c :: t ∧ isDig c = true := by
  cases s with
  | nil => exact Option.noConfusion h
  | cons c t =>
    by_cases hc : isDig c = true
    · exact ⟨c, t, rfl, hc⟩
    · have hc' : isDig c = false := by revert hc; cases isDig c <;> simp
      have hd1 : digit1 (c :: t) = none := by
        simp [digit1, List.takeWhile_cons, hc']
      simp only [address_number, hd1] at h
      exact Option.noConfusion h

/-- C1: the claim says broj_list must FAIL on inputs that are only
whitespace and commas with zero specification items; the code instead
SUCCEEDS with an empty list on both "," and "   ,   " because
separated_list0 returns an empty vector when its first element fails.
This theorem evaluates the code at the claim's failing inputs,
exhibiting the divergence (the module's own test test_reject_simple_comma
expects an error on the second input). -/
theorem C1_itemless_list_accepted :
    broj_list (",".toList) = some ([], []) ∧
    broj_list ("   ,   ".toList) = some ([], []) := by
  constructor <;> decide

/-- C2: the specification alternation tries Range before Single — whenever
the range parser succeeds on an input, broj returns that Range (consuming
both sides and the separator), never a Single of the left number; in
particular "123A-321B" parses to a single full Range. -/
theorem C2_range_tried_before_single :
    (∀ s r rg, address_number_range s = some (r, rg) →
      broj s = some (r, Broj.Range rg)) ∧
    broj ("123A-321B".toList) =
      some ([], Broj.Range ⟨⟨123, some ['A']⟩, ⟨321, some ['B']⟩⟩) := by
  constructor
  · intro s r rg h
    have hge : ∃ c t, s = c :: t ∧ isDig c = true := by
      cases e : address_number s with
      | none => rw [address_number_range, e] at h; exact Option.noConfusion h
      | some q => exact address_number_head s q e
    obtain ⟨c, t, rfl, hc⟩ := hge
    have hcn : 48 ≤ c.toNat ∧ c.toNat ≤ 57 := by
      simpa [isDig, decide_eq_true_eq] using hc
    have hbb : tag_no_case ['b', 'b'] (c :: t) = none := by
      have hne : asciiLower 'b' ≠ asciiLower c := by
        intro heq
        have hnd : ¬(65 ≤ c.toNat ∧ c.toNat ≤ 90) := by omega
        have hlow : asciiLower c = c := by unfold asciiLower; rw [if_neg hnd]
        rw [hlow] at heq
        have h1 : ('b').toNat = c.toNat := congrArg Char.toNat heq
        have h2 : ('b').toNat = 98 := by decide
        omega
      simp [tag_no_case, hne]
    simp only [broj, hbb, h]
  · decide

/-- C2 witness: the general order theorem applied at the concrete range
input "123A-321B". -/
theorem C2_range_tried_before_single_witness :
    broj ("123A-321B".toList) =
      some ([], Broj.Range ⟨⟨123, some ['A']⟩, ⟨321, some ['B']⟩⟩) :=
  C2_range_tried_before_single.1 ("123A-321B".toList) [] ⟨⟨123, some ['A']⟩, ⟨321, some ['B']⟩⟩ (by decide)

/-- C3: the row parser fails (propagating the entry failure) exactly when
the first street entry fails; once the first entry succeeds it returns
that entry followed by the further ones collected until the first break,
and Addresses::parse reports success with exactly those entries in source
order, silently discarding the unconsumed remainder. -/
theorem C3_row_semantics (s : Input) :
    (address_number_pair s = none →
      addresses s = none ∧ Addresses.parse s = none) ∧
    (∀ i1 a, address_number_pair s = some (i1, a) →
      ∃ rest extra, addresses s = some (rest, a :: extra) ∧
        Addresses.parse s = some ⟨a :: extra⟩) ∧
    (∀ rest items, addresses s = some (rest, items) →
      Addresses.parse s = some ⟨items⟩) := by
  refine ⟨?_, ?_, ?_⟩
  · intro h
    refine ⟨?_, ?_⟩
    · simp only [addresses, h]
    · simp only [Addresses.parse, addresses, h]
  · intro i1 a h
    obtain ⟨r, extra, he⟩ := many1Loop_shape i1.length i1 [a]
    refine ⟨r, extra, ?_, ?_⟩
    · simp only [addresses, h, he, List.singleton_append]
    · simp only [Addresses.parse, addresses, h, he, List.singleton_append]
  · intro rest items h
    simp only [Addresses.parse, h]

/-- C3 witness: on "A: BB,xyz" the first entry succeeds and the leftover
"xyz" is discarded, the row reporting exactly the recognized entries. -/
theorem C3_row_semantics_witness :
    ∃ rest extra,
      addresses ("A: BB,xyz".toList) = some (rest, ⟨['A'], [Broj.Bez]⟩ :: extra) ∧
      Addresses.parse ("A: BB,xyz".toList) = some ⟨⟨['A'], [Broj.Bez]⟩ :: extra⟩ :=
  (C3_row_semantics ("A: BB,xyz".toList)).2.1 ("xyz".toList) ⟨['A'], [Broj.Bez]⟩ (by decide)

/-- C6: the range parser accepts exactly a number token, the literal dash
and a second number token — success is equivalent to that three-part
decomposition (so it fails whenever either side or the separator is
absent), and no whitespace is tolerated around the dash: "123 - 321"
fails. -/
theorem C6_range_exact_shape :
    (∀ s r rg, address_number_range s = some (r, rg) ↔
      ∃ m m2, address_number s = some (m, rg.fromN) ∧
        tag ['-'] m = some (m2, ['-']) ∧ address_number m2 = some (r, rg.toN)) ∧
    address_number_range ("123 - 321".toList) = none := by
  constructor
  · intro s r rg
    constructor
    · intro h
      cases e : address_number s with
      | none => rw [address_number_range, e] at h; exact Option.noConfusion h
      | some q =>
        obtain ⟨m, a⟩ := q
        cases e2 : tag ['-'] m with
        | none =>
          simp only [address_number_range, e, e2] at h
          exact Option.noConfusion h
        | some q2 =>
          obtain ⟨m2, mm⟩ := q2
          cases e3 : address_number m2 with
          | none =>
            simp only [address_number_range, e, e2, e3] at h
            exact Option.noConfusion h
          | some q3 =>
            obtain ⟨r2, b⟩ := q3
            simp only [address_number_range, e, e2, e3, Option.some.injEq,
              Prod.mk.injEq] at h
            obtain ⟨h1, h2⟩ := h
            subst h1
            subst h2
            have hmm := (tag_single '-' m m2 mm e2).2
            subst hmm
            refine ⟨m, m2, ?_, e2, ?_⟩
            · simp [e]
            · simpa using e3
    · rintro ⟨m, m2, h1, h2, h3⟩
      simp only [address_number_range, h1, h2, h3]
  · decide

/-- C7: the no-number marker is matched case-insensitively: all four
casings of "bb" parse to the NoNumber variant, consuming both marker
characters. -/
theorem C7_bb_case_insensitive :
    broj ("BB".toList) = some ([], Broj.Bez) ∧
    broj ("bb".toList) = some ([], Broj.Bez) ∧
    broj ("Bb".toList) = some ([], Broj.Bez) ∧
    broj ("bB".toList) = some ([], Broj.Bez) := by
  refine ⟨?_, ?_, ?_, ?_⟩ <;> decide

/-- C8: the claim says the street-entry parser must fail when the
post-colon text does not begin with a valid specification list; the code
instead succeeds on "X: ," — whose post-colon text contains no
specification item at all — returning an entry with an empty number
list, because the list parser never fails (same root cause exhibited for
C1).  This theorem evaluates the code at that failing input. -/
theorem C8_entry_with_itemless_list_accepted :
    address_number_pair ("X: ,".toList) = some ([], ⟨['X'], []⟩) := by decide

/-- C9: when the pre-colon span is non-empty but all whitespace, the
street-entry parser still succeeds (the list parser never fails on the
rest) and trimming produces an empty street field. -/
theorem C9_whitespace_street_trims_empty (pre rest : Input) (h1 : pre ≠ [])
    (h2 : ∀ c ∈ pre, isRustWhitespace c = true) :
    ∃ r items, broj_list rest = some (r, items) ∧
      address_number_pair (pre ++ ':' :: rest) = some (r, ⟨[], items⟩) := by
  cases hb : broj_list rest with
  | none => exact absurd hb (by simp [broj_list])
  | some q =>
    obtain ⟨r, items⟩ := q
    refine ⟨r, items, rfl, ?_⟩
    have hcolon : ∀ c ∈ pre, (fun c => c != ':') c = true := by
      intro c hc
      have hw := h2 c hc
      by_cases hcc : c = ':'
      · subst hcc; exact absurd hw (by decide)
      · simp [hcc]
    have hhead : headFails (fun c => c != ':') (':' :: rest) = true := by
      simp [headFails]
    have hsp := span_append (fun c => c != ':') pre (':' :: rest) hcolon hhead
    have htu : take_until1_colon (pre ++ ':' :: rest) = some (':' :: rest, pre) := by
      unfold take_until1_colon
      rw [hsp.1, hsp.2]
      rw [if_neg (by simp), if_neg h1]
    have htag : tag [':'] (':' :: rest) = some (rest, [':']) := by simp [tag]
    have htrim : rustTrim pre = [] := by
      unfold rustTrim
      have hdw : pre.dropWhile isRustWhitespace = [] :=
        List.dropWhile_eq_nil_iff.mpr (fun x hx => h2 x hx)
      rw [hdw]
      rfl
    simp only [address_number_pair, htu, htag, hb, htrim]

/-- C9 witness: the single-space street " : BB," succeeds with an empty
street field. -/
theorem C9_whitespace_street_trims_empty_witness :
    ∃ r items, broj_list (" BB,".toList) = some (r, items) ∧
      address_number_pair ([' '] ++ ':' :: (" BB,".toList)) = some (r, ⟨[], items⟩) :=
  C9_whitespace_street_trims_empty [' '] (" BB,".toList) (by decide) (by decide)

/-- C10: a leading digit run denoting a value above usize::MAX makes the
number-token parser fail outright — the checked conversion's error aborts
the token parse with no wrapping or truncation. -/
theorem C10_overflow_token_fails (ds rest : Input) (h1 : ds ≠ [])
    (h2 : ∀ c ∈ ds, isDig c = true) (h3 : headFails isDig rest = true)
    (h4 : USIZE_MAX < digitsToNat ds) :
    address_number (ds ++ rest) = none := by
  have hsp := span_append isDig ds rest h2 h3
  have hd : digit1 (ds ++ rest) = some (rest, ds) := by
    unfold digit1
    rw [hsp.1, hsp.2, if_neg h1]
  have hp : parse_usize ds = none := by
    unfold parse_usize
    rw [if_neg h1, if_pos (List.all_eq_true.mpr h2), if_neg (by omega)]
  simp only [address_number, hd, hp]

/-- C10 witness: the decimal token of 2^64 (one above usize::MAX) is
rejected. -/
theorem C10_overflow_token_fails_witness :
    address_number ("18446744073709551616".toList) = none := by
  have h := C10_overflow_token_fails ("18446744073709551616".toList) []
    (by decide) (by decide) (by decide) (by decide)
  simpa using h


/-- C5: list parsing is insensitive to exactly one trailing comma:
"BB,123" and "BB,123," produce the identical two-item sequence, "BB,"
succeeds with the single-item sequence, and in general whenever the
comma-separated item run consumes an input exactly, broj_list accepts
both that input and the input with one appended comma, with identical
items. -/
theorem C5_trailing_comma_insensitive :
    broj_list ("BB,123".toList) = some ([], [Broj.Bez, Broj.Number ⟨123, none⟩]) ∧
    broj_list ("BB,123,".toList) = some ([], [Broj.Bez, Broj.Number ⟨123, none⟩]) ∧
    broj_list ("BB,".toList) = some ([], [Broj.Bez]) ∧
    ∀ s items, separated_broj_list s = ([], items) →
      broj_list s = some ([], items) ∧ broj_list (s ++ [',']) = some ([], items) := by
  refine ⟨by decide, by decide, by decide, ?_⟩
  intro s items h
  cases s with
  | nil =>
    have h0 : items = [] := by
      have := h
      simp only [separated_broj_list, broj_nil, Prod.mk.injEq] at this
      exact this.2.symm
    subst h0
    exact ⟨by decide, by decide⟩
  | cons c t =>
    cases e : broj (c :: t) with
    | none =>
      simp only [separated_broj_list, e, Prod.mk.injEq] at h
      exact absurd h.1 (by simp)
    | some q =>
      obtain ⟨s1, b⟩ := q
      simp only [separated_broj_list, e] at h
      have hns := broj_head_not_space c t (s1, b) e
      have hms : multispace0 (c :: t) = c :: t := by
        simp [multispace0, List.dropWhile_cons, hns]
      constructor
      · simp only [broj_list, hms, separated_broj_list, e, h]
        simp [tag, multispace0]
      · have hms2 : multispace0 ((c :: t) ++ [',']) = (c :: t) ++ [','] := by
          simp [multispace0, List.cons_append, List.dropWhile_cons, hns]
        have he2 : broj ((c :: t) ++ [',']) = some (s1 ++ [','], b) :=
          broj_ext_comma (c :: t) s1 b e
        have hloop : sepListLoop (s1.length + 1) (s1 ++ [',']) [b] = ([','], items) :=
          sepListLoop_append_comma s1.length s1 [b] items h
        have hlen : (s1 ++ [',']).length = s1.length + 1 := by simp
        simp only [broj_list, hms2, separated_broj_list, he2, hlen, hloop]
        simp [tag, multispace0]

/-- C5 witness: the general trailing-comma theorem applied to the item
run "BB,123". -/
theorem C5_trailing_comma_insensitive_witness :
    broj_list ("BB,123".toList) = some ([], [Broj.Bez, Broj.Number ⟨123, none⟩]) ∧
    broj_list ("BB,123".toList ++ [',']) = some ([], [Broj.Bez, Broj.Number ⟨123, none⟩]) :=
  C5_trailing_comma_insensitive.2.2.2 ("BB,123".toList)
    [Broj.Bez, Broj.Number ⟨123, none⟩] (by decide)

/-- C4 counterexample: the claim quantifies over every non-negative
integer v, but the rendered token of v = 2^64 (one above usize::MAX)
fails to parse instead of yielding its value, because the digit string is
converted with a checked parse. -/
theorem C4_token_roundtrip_counterexample :
    address_number (natToDigits (2 ^ 64)) = none := by decide

/-- C4 (amended): for every v that fits in usize and every extension
string from the extension grammar — letters, letters slash digits, or
slash digits alone, or absent — parsing the rendered token consumes the
whole string and returns exactly v with exactly that extension (None when
absent). -/
theorem C4_token_roundtrip (v : Nat) (hv : v ≤ USIZE_MAX) (L S : Input)
    (hL : ∀ c ∈ L, isAlph c = true)
    (hS : S = [] ∨ ∃ ds, ds ≠ [] ∧ (∀ c ∈ ds, isDig c = true) ∧ S = '/' :: ds) :
    address_number (natToDigits v ++ (L ++ S)) =
      some ([],
        { value := v,
          extension := if L ++ S = [] then none else some (L ++ S) }) := by
  have hhead : headFails isDig (L ++ S) = true := by
    cases L with
    | cons c t =>
      simp only [List.cons_append, headFails]
      have hA := hL c (by simp)
      simp only [isAlph, decide_eq_true_eq] at hA
      simp only [isDig, Bool.not_eq_true', decide_eq_false_iff_not]
      omega
    | nil =>
      simp only [List.nil_append]
      cases hS with
      | inl h0 => subst h0; rfl
      | inr h0 =>
        obtain ⟨ds, hne, hds, h0⟩ := h0
        subst h0
        rfl
  have hd1 : digit1 (natToDigits v ++ (L ++ S)) = some (L ++ S, natToDigits v) := by
    have hsp := span_append isDig (natToDigits v) (L ++ S) (natToDigits_digits v) hhead
    unfold digit1
    rw [hsp.1, hsp.2, if_neg (natToDigits_ne_nil v)]
  have hp : parse_usize (natToDigits v) = some v := by
    unfold parse_usize
    rw [if_neg (natToDigits_ne_nil v),
      if_pos (List.all_eq_true.mpr (natToDigits_digits v)),
      digitsToNat_natToDigits, if_pos hv]
  have hS_headA : headFails isAlph S = true := by
    cases hS with
    | inl h0 => subst h0; rfl
    | inr h0 =>
      obtain ⟨ds, hne, hds, h0⟩ := h0
      subst h0
      rfl
  have hspA := span_append isAlph L S hL hS_headA
  cases hS with
  | inl h0 =>
    subst h0
    have hdw : (L ++ ([] : Input)).dropWhile isAlph = [] := hspA.2
    have her : ext_rest (L ++ ([] : Input)) = [] := by
      simp only [ext_rest, hdw]
      rfl
    simp only [address_number, hd1, hp, her]
    simp [List.take_length]
  | inr h0 =>
    obtain ⟨ds, hne, hds, h0⟩ := h0
    subst h0
    have hdw : (L ++ '/' :: ds).dropWhile isAlph = '/' :: ds := hspA.2
    have hdig_ds : digit1 ds = some ([], ds) := by
      have h2 := span_append isDig ds [] hds rfl
      simp only [List.append_nil] at h2
      unfold digit1
      rw [h2.1, h2.2, if_neg hne]
    have htg : tag ['/'] ('/' :: ds) = some (ds, ['/']) := by simp [tag]
    have her : ext_rest (L ++ '/' :: ds) = [] := by
      simp only [ext_rest, hdw, htg, hdig_ds]
    simp only [address_number, hd1, hp, her]
    simp [List.take_length]

/-- C4 witness: the amended round-trip theorem applied to value 36 with
the fractional extension "A/1", recovering the source's own test case
"36A/1". -/
theorem C4_token_roundtrip_witness :
    address_number ("36A/1".toList) = some ([], ⟨36, some ['A', '/', '1']⟩) := by
  have h := C4_token_roundtrip 36 (by decide) ['A'] ['/', '1'] (by decide)
    (Or.inr ⟨['1'], by decide, by decide, rfl⟩)
  have he : natToDigits 36 ++ (['A'] ++ ['/', '1']) = "36A/1".toList := by decide
  rw [he] at h
  simpa using h

end Beobot
